import Mathlib

/-!
Verification of the loom concurrency model checker's core against its
specification.  The definitions below are a shallow embedding of the Rust
source under `src/`: `rt/atomic.rs` (atomic store histories, `pick_store`,
`rmw`, `fence`, `happens_before`, `FirstSeen`), `rt/object.rs` (the tagged
object store), `rt/thread.rs` (the thread set) and `model.rs` (the driver
loop).  Components of the repository that are referenced but whose source
files are not present (`rt/vv.rs`, `rt/synchronize.rs`, `rt/path.rs`) are
modelled from the specification's description, and are marked as such.
-/

set_option linter.unusedVariables false

namespace Loom

/-- Source: `std::sync::atomic::Ordering`, as matched by the source. -/
inductive Ordering where
  | relaxed
  | release
  | acquire
  | acqrel
  | seqcst
deriving DecidableEq, Repr

/-- Source: `is_seq_cst` from `rt/atomic.rs`: true exactly for `SeqCst`. -/
def is_seq_cst (order : Ordering) : Bool :=
  match order with
  | .seqcst => true
  | _ => false

/-- Modelled from the spec: `VersionVec` (`rt/vv.rs` is not under `src/`).
"ordered per-thread logical-clock sequence", one `Nat` clock per thread. -/
abbrev VersionVec : Type := List Nat

/-- Modelled from the spec: `VersionVec::new(n)` is the all-zero width-`n`
vector. -/
def VersionVec.new (n : Nat) : VersionVec := List.replicate n 0

/-- Clock of thread `i`; slots beyond the width read as zero. -/
def VersionVec.get (vv : VersionVec) (i : Nat) : Nat :=
  List.getD vv i 0

/-- Modelled from the spec: `join` is pointwise max. -/
def VersionVec.join : VersionVec → VersionVec → VersionVec
  | [], ys => ys
  | xs, [] => xs
  | x :: xs, y :: ys => max x y :: VersionVec.join xs ys

/-- Modelled from the spec: `<=` on `VersionVec` is pointwise less-equal
(happens-before-or-equal); absent slots read as zero. -/
def VersionVec.le (a b : VersionVec) : Bool :=
  (List.range (max (List.length a) (List.length b))).all
    (fun i => Nat.ble (a.get i) (b.get i))

/-- Modelled from the spec: `inc(thread)` bumps the thread's own slot. -/
def VersionVec.inc (vv : VersionVec) (i : Nat) : VersionVec :=
  List.set vv i (vv.get i + 1)

/-- Modelled from the spec: `Synchronize` (`rt/synchronize.rs` is not under
`src/`).  The spec's causality-transfer rules only ever consult the
store-side (release) vector, so `Synchronize` is modelled as that vector:
`sync_store` with a release-class ordering joins the acting thread's
causality into it and `sync_load` with an acquire-class ordering joins it
into the loading thread's causality. -/
structure Synchronize where
  releaseVv : VersionVec
deriving DecidableEq, Repr

/-- Modelled from the spec: a fresh `Synchronize` carries all-zero vectors
of width `max_threads`. -/
def Synchronize.new (maxThreads : Nat) : Synchronize :=
  { releaseVv := VersionVec.new maxThreads }

/-- Source: `Synchronize::version_vec`: the store-side vector, checked by
`State::happens_before`. -/
def Synchronize.version_vec (s : Synchronize) : VersionVec :=
  s.releaseVv

/-- Thread identifier (`thread::Id`): execution id plus index. -/
structure Id where
  execution_id : Nat
  id : Nat
deriving DecidableEq, Repr

/-- Source: `thread::Id::as_usize`. -/
def Id.as_usize (i : Id) : Nat := i.id

/-- Scheduling state of a thread (`thread::State`). -/
inductive ThreadState where
  | runnable
  | blocked
  | yielded
  | terminated
deriving DecidableEq, Repr

/-- A thread (`thread::Thread`).  The thread-local slot map and the pending
`Operation` are omitted: they are dynamically typed and play no role in the
claims below. -/
structure Thread where
  id : Id
  state : ThreadState
  critical : Bool
  causality : VersionVec
  dpor_vv : VersionVec
  last_yield : Option Nat
  yield_count : Nat
deriving DecidableEq, Repr

instance : Inhabited Thread :=
  ⟨{ id := ⟨0, 0⟩, state := .runnable, critical := false,
     causality := [], dpor_vv := [], last_yield := none, yield_count := 0 }⟩

/-- Source: `Thread::new`. -/
def Thread.new (id : Id) (maxThreads : Nat) : Thread :=
  { id := id
    state := .runnable
    critical := false
    causality := VersionVec.new maxThreads
    dpor_vv := VersionVec.new maxThreads
    last_yield := none
    yield_count := 0 }

/-- The thread table (`thread::Set`).  The `Vec` capacity, which
`Set::max()` reports and `new_thread` checks against, is modelled by the
`maxThreads` field (the vector is created with `with_capacity(max_threads)`
and never outgrows it). -/
structure ThreadSet where
  execution_id : Nat
  threads : List Thread
  active : Option Nat
  seq_cst_causality : VersionVec
  maxThreads : Nat
deriving DecidableEq, Repr

/-- Source: `Set::new`: one initial thread with index 0. -/
def ThreadSet.new (executionId maxThreads : Nat) : ThreadSet :=
  { execution_id := executionId
    threads := [Thread.new ⟨executionId, 0⟩ maxThreads]
    active := some 0
    seq_cst_causality := VersionVec.new maxThreads
    maxThreads := maxThreads }

/-- Source: `Set::max`. -/
def ThreadSet.max (ts : ThreadSet) : Nat := ts.maxThreads

/-- Index of the active thread.  The source unwraps `active`
(`self.active.unwrap()`); all call sites in the claims run with an active
thread, so the `None` panic is modelled by the default 0. -/
def ThreadSet.activeIdx (ts : ThreadSet) : Nat := ts.active.getD 0

/-- Source: `Set::active()`: the active thread. -/
def ThreadSet.activeThread (ts : ThreadSet) : Thread :=
  List.getD ts.threads ts.activeIdx default

/-- Source: `Set::active_id()`. -/
def ThreadSet.active_id (ts : ThreadSet) : Id :=
  ⟨ts.execution_id, ts.activeIdx⟩

/-- Source: `Set::active_atomic_version()`: the active thread's own clock slot. -/
def ThreadSet.active_atomic_version (ts : ThreadSet) : Nat :=
  (ts.activeThread).causality.get ts.activeIdx

/-- Replace the thread at index `i`. -/
def ThreadSet.setThread (ts : ThreadSet) (i : Nat) (t : Thread) : ThreadSet :=
  { ts with threads := List.set ts.threads i t }

/-- Update the active thread in place (`Set::active_mut()`). -/
def ThreadSet.modifyActive (ts : ThreadSet) (f : Thread → Thread) : ThreadSet :=
  ts.setThread ts.activeIdx (f ts.activeThread)

/-- Source: `Set::active_causality_inc()`: bump the active thread's own slot. -/
def ThreadSet.active_causality_inc (ts : ThreadSet) : ThreadSet :=
  ts.modifyActive (fun t => { t with causality := t.causality.inc ts.activeIdx })

/-- Source: `Set::new_thread`: asserts the set is below capacity, then appends a
thread whose index is the previous thread count. `none` models the
assertion failure. -/
def ThreadSet.new_thread (ts : ThreadSet) : Option (ThreadSet × Id) :=
  if List.length ts.threads < ts.max then
    let id := List.length ts.threads
    some ({ ts with
              threads := ts.threads ++
                [Thread.new ⟨ts.execution_id, id⟩ ts.maxThreads] },
          ⟨ts.execution_id, id⟩)
  else
    none

/-- Modelled from the spec: `Synchronize::sync_load(threads, ordering)`.
"Acquire/AcqRel/SeqCst join the store's release vector into the loading
thread; SeqCst additionally joins the global seq-cst vector; Relaxed
transfers nothing."  The `Synchronize` itself is unchanged. -/
def Synchronize.sync_load (sy : Synchronize) (ts : ThreadSet) (order : Ordering) :
    ThreadSet :=
  match order with
  | .acquire | .acqrel =>
      ts.modifyActive (fun t => { t with causality := t.causality.join sy.releaseVv })
  | .seqcst =>
      let ts1 := ts.modifyActive
        (fun t => { t with causality := t.causality.join sy.releaseVv })
      ts1.modifyActive
        (fun t => { t with causality := t.causality.join ts.seq_cst_causality })
  | _ => ts

/-- Modelled from the spec: `Synchronize::sync_store(threads, ordering)`.
"Release/AcqRel/SeqCst join the acting thread's causality into the store's
release vector; SeqCst additionally joins into a global seq-cst vector;
Relaxed transfers nothing." -/
def Synchronize.sync_store (sy : Synchronize) (ts : ThreadSet) (order : Ordering) :
    Synchronize × ThreadSet :=
  match order with
  | .release | .acqrel =>
      ({ releaseVv := sy.releaseVv.join (ts.activeThread).causality }, ts)
  | .seqcst =>
      ({ releaseVv := sy.releaseVv.join (ts.activeThread).causality },
       { ts with
           seq_cst_causality :=
             ts.seq_cst_causality.join (ts.activeThread).causality })
  | _ => (sy, ts)

/-- Source: `Access` (`rt/access.rs`): last operation touching an object. -/
structure Access where
  path_id : Nat
  dpor_vv : VersionVec
deriving DecidableEq, Repr

/-- Source: `FirstSeen` (`rt/atomic.rs`): per thread, the thread's own atomic
version at which it first saw the store, `none` if not yet. -/
abbrev FirstSeen : Type := List (Option Nat)

/-- The `resize(hb.len(), None)` step of `FirstSeen::touch` (the guard only
ever grows the table). -/
def FirstSeen.pad (fs : FirstSeen) (n : Nat) : FirstSeen :=
  if List.length fs < n then fs ++ List.replicate (n - List.length fs) none
  else fs

/-- Source: `FirstSeen::touch`: grow the table to the causality width, then record
the active thread's current atomic version only if that thread has no
recorded entry yet.  (The source indexes the slot directly; the
out-of-range panic is modelled by `List.set`'s no-op.) -/
def FirstSeen.touch (fs : FirstSeen) (ts : ThreadSet) : FirstSeen :=
  let fs1 := fs.pad (List.length (ts.activeThread).causality)
  let aid := (ts.active_id).as_usize
  if List.getD fs1 aid none = none then
    List.set fs1 aid (some ts.active_atomic_version)
  else fs1

/-- Source: `FirstSeen::new`: start empty, then `touch`. -/
def FirstSeen.new (ts : ThreadSet) : FirstSeen :=
  FirstSeen.touch ([] : List (Option Nat)) ts

/-- Source: `FirstSeen::is_seen_by_current`: some thread's recorded first-seen
version falls within the active thread's causality. -/
def FirstSeen.is_seen_by_current (fs : FirstSeen) (ts : ThreadSet) : Bool :=
  (List.range (List.length (ts.activeThread).causality)).any
    (fun thread_id =>
      match List.getD fs thread_id none with
      | some v => Nat.ble v ((ts.activeThread).causality.get thread_id)
      | none => false)

/-- Source: `FirstSeen::is_seen_before_yield`: the active thread recorded the store
at or before its last yield. -/
def FirstSeen.is_seen_before_yield (fs : FirstSeen) (ts : ThreadSet) : Bool :=
  match (ts.activeThread).last_yield with
  | none => false
  | some last_yield =>
      match List.getD fs (ts.active_id).as_usize none with
      | none => false
      | some v => Nat.ble v last_yield

/-- One record of an atomic's store history (`Store` in `rt/atomic.rs`). -/
structure AtomicStore where
  sync : Synchronize
  first_seen : FirstSeen
  seq_cst : Bool
deriving DecidableEq, Repr

instance : Inhabited AtomicStore :=
  ⟨{ sync := Synchronize.new 0, first_seen := [], seq_cst := false }⟩

/-- Source: `History`: the ordered store history of one atomic location. -/
structure History where
  stores : List AtomicStore
deriving DecidableEq, Repr

/-- State of one atomic object (`State` in `rt/atomic.rs`). -/
structure AtomicState where
  last_access : Option Access
  history : History
deriving DecidableEq, Repr

/-- The body of `pick_store`'s `take_while` walk, processing indices
`j-1, j-2, ..., 0` (newest to oldest) with the running `in_causality` /
`first` flags.  For each index: a store the active thread saw at or before
its last yield is kept only when it is the first one examined and marks
causality reached; otherwise the store is kept exactly when causality was
not yet reached, and seq-cst pairing or causal observation marks causality
reached for the remaining (older) stores. -/
def pickAux (stores : List AtomicStore) (ts : ThreadSet) (order : Ordering) :
    Nat → Bool → Bool → List Nat
  | 0, _, _ => []
  | j + 1, in_causality, first =>
      let store := List.getD stores j default
      if store.first_seen.is_seen_before_yield ts then
        if first then j :: pickAux stores ts order j true false else []
      else if in_causality then []
      else
        j :: pickAux stores ts order j
          ((is_seq_cst order && store.seq_cst) ||
            store.first_seen.is_seen_by_current ts)
          false

/-- Source: `History::pick_store`, as the list of candidate store indices the
iterator passed to `Path::branch_write` yields, newest first.  The `Path`
then nondeterministically picks one of these. -/
def History.pick_store_candidates (h : History) (ts : ThreadSet) (order : Ordering) :
    List Nat :=
  pickAux h.stores ts order (List.length h.stores) false true

/-- Update the store record at one history index. -/
def History.updateStore (h : History) (i : Nat) (f : AtomicStore → AtomicStore) :
    History :=
  { stores := List.set h.stores i (f (List.getD h.stores i default)) }

/-- Source: `State::load`, given the index the `Path` chose among the candidates:
record first-seen and apply `sync_load`. -/
def AtomicState.load (s : AtomicState) (ts : ThreadSet) (order : Ordering)
    (index : Nat) : AtomicState × ThreadSet × Nat :=
  let h1 := s.history.updateStore index
    (fun st => { st with first_seen := st.first_seen.touch ts })
  let ts1 := (List.getD h1.stores index default).sync.sync_load ts order
  ({ s with history := h1 }, ts1, index)

/-- Source: `State::store`: append a fresh store, seq-cst flag from the ordering,
and apply `sync_store`. -/
def AtomicState.store (s : AtomicState) (ts : ThreadSet) (order : Ordering) :
    AtomicState × ThreadSet :=
  let st : AtomicStore :=
    { sync := Synchronize.new ts.max
      first_seen := FirstSeen.new ts
      seq_cst := is_seq_cst order }
  let (sync1, ts1) := st.sync.sync_store ts order
  ({ s with history := { stores := s.history.stores ++ [{ st with sync := sync1 }] } },
   ts1)

/-- Source: `State::rmw`: touch the latest store, run `f` (its outcome is the
`fres` parameter), on failure `sync_load(failure)`; on success
`sync_load(success)`, then append a store cloning the prior `Synchronize`
and apply `sync_store(success)` to it. -/
def AtomicState.rmw (ε : Type) (s : AtomicState) (ts : ThreadSet)
    (fres : Except ε Unit) (success failure : Ordering) :
    Except ε Nat × AtomicState × ThreadSet :=
  let index := List.length s.history.stores - 1
  let h1 := s.history.updateStore index
    (fun st => { st with first_seen := st.first_seen.touch ts })
  match fres with
  | .error e =>
      let ts1 := (List.getD h1.stores index default).sync.sync_load ts failure
      (.error e, { s with history := h1 }, ts1)
  | .ok _ =>
      let ts1 := (List.getD h1.stores index default).sync.sync_load ts success
      let cloned := (List.getD h1.stores index default).sync
      let st : AtomicStore :=
        { sync := cloned
          first_seen := FirstSeen.new ts1
          seq_cst := is_seq_cst success }
      let (sync1, ts2) := st.sync.sync_store ts1 success
      (.ok index,
       { s with history := { stores := h1.stores ++ [{ st with sync := sync1 }] } },
       ts2)

/-- Source: `State::happens_before(vv)`: the assertion's condition — every recorded
store's synchronize vector is ordered at or before `vv`.  `false` models
the fatal assertion failure. -/
def AtomicState.happens_before_ok (s : AtomicState) (vv : VersionVec) : Bool :=
  List.all s.history.stores (fun store => store.sync.version_vec.le vv)

/-- Modelled from the spec: payload of an `Alloc` entry (`rt/alloc.rs` is
not under `src/`); its internals are irrelevant to the object-store
mechanism and are represented opaquely. -/
structure AllocState where
  val : Nat
deriving DecidableEq, Repr

/-- Modelled from the spec: payload of an `Arc` entry (`rt/arc.rs` is not
under `src/`). -/
structure ArcState where
  val : Nat
deriving DecidableEq, Repr

/-- Modelled from the spec: payload of a `Mutex` entry (`rt/mutex.rs` is
not under `src/`). -/
structure MutexState where
  val : Nat
deriving DecidableEq, Repr

/-- Modelled from the spec: payload of a `Condvar` entry (`rt/condvar.rs`
is not under `src/`). -/
structure CondvarState where
  val : Nat
deriving DecidableEq, Repr

/-- Modelled from the spec: payload of a `Notify` entry (`rt/notify.rs` is
not under `src/`). -/
structure NotifyState where
  val : Nat
deriving DecidableEq, Repr

/-- Modelled from the spec: payload of a `Cell` entry (`rt/cell.rs` is not
under `src/`). -/
structure CellState where
  val : Nat
deriving DecidableEq, Repr

/-- The tagged object-store entry (`Entry` in `rt/object.rs`, generated by
the `objects!` macro). -/
inductive Entry where
  | alloc (s : AllocState)
  | arc (s : ArcState)
  | atomic (s : AtomicState)
  | mutex (s : MutexState)
  | condvar (s : CondvarState)
  | notify (s : NotifyState)
  | cell (s : CellState)
deriving DecidableEq, Repr

/-- The `Object` trait of `rt/object.rs`, specialized at `Entry`. -/
class Object (T : Type) where
  into_entry : T → Entry
  get_ref : Entry → Option T
  get_mut : Entry → Option T

instance objectAllocState : Object AllocState where
  into_entry := Entry.alloc
  get_ref e := match e with | .alloc s => some s | _ => none
  get_mut e := match e with | .alloc s => some s | _ => none

instance objectArcState : Object ArcState where
  into_entry := Entry.arc
  get_ref e := match e with | .arc s => some s | _ => none
  get_mut e := match e with | .arc s => some s | _ => none

instance objectAtomicState : Object AtomicState where
  into_entry := Entry.atomic
  get_ref e := match e with | .atomic s => some s | _ => none
  get_mut e := match e with | .atomic s => some s | _ => none

instance objectMutexState : Object MutexState where
  into_entry := Entry.mutex
  get_ref e := match e with | .mutex s => some s | _ => none
  get_mut e := match e with | .mutex s => some s | _ => none

instance objectCondvarState : Object CondvarState where
  into_entry := Entry.condvar
  get_ref e := match e with | .condvar s => some s | _ => none
  get_mut e := match e with | .condvar s => some s | _ => none

instance objectNotifyState : Object NotifyState where
  into_entry := Entry.notify
  get_ref e := match e with | .notify s => some s | _ => none
  get_mut e := match e with | .notify s => some s | _ => none

instance objectCellState : Object CellState where
  into_entry := Entry.cell
  get_ref e := match e with | .cell s => some s | _ => none
  get_mut e := match e with | .cell s => some s | _ => none

/-- The object store (`Store` in `rt/object.rs`), at entry type `Entry`. -/
structure Store where
  entries : List Entry
deriving DecidableEq, Repr

/-- A typed reference into the store (`Ref<T>` in `rt/object.rs`). -/
structure Ref (T : Type) where
  index : Nat
deriving DecidableEq, Repr

/-- Source: `Store::insert`: append the entry; the returned reference's index is
the store length before insertion. -/
def Store.insert {T : Type} [Object T] (s : Store) (item : T) : Store × Ref T :=
  let index := List.length s.entries
  ({ entries := s.entries ++ [Object.into_entry item] }, ⟨index⟩)

/-- Source: `Ref::get`: fetch the entry at the index and require the `T` variant.
`none` models both panics (index out of range, variant mismatch via
`expect`). -/
def Ref.get {T : Type} [Object T] (r : Ref T) (s : Store) : Option T :=
  Option.bind (List.get? s.entries r.index) Object.get_ref

/-- Source: `Ref::get_mut`: as `Ref::get`, through the trait's `get_mut`. -/
def Ref.get_mut {T : Type} [Object T] (r : Ref T) (s : Store) : Option T :=
  Option.bind (List.get? s.entries r.index) Object.get_mut

/-- Inner loop of `fence` over one atomic's history, oldest first, carrying
the history index `j`: each store the active thread has first-seen (tested
against the current, growing causality) receives `sync_load(Acquire)` and
is recorded in the ghost `applied` list as `(objIdx, j)`. -/
def fenceHistory (objIdx : Nat) (ts : ThreadSet) (applied : List (Nat × Nat)) :
    List AtomicStore → Nat → ThreadSet × List (Nat × Nat)
  | [], _ => (ts, applied)
  | st :: rest, j =>
      if st.first_seen.is_seen_by_current ts then
        fenceHistory objIdx (st.sync.sync_load ts .acquire)
          (applied ++ [(objIdx, j)]) rest (j + 1)
      else
        fenceHistory objIdx ts applied rest (j + 1)

/-- Outer loop of `fence` over `objects.atomics_mut()`: all atomic entries
of the object store, in store order, carrying the entry index. -/
def fenceEntries (ts : ThreadSet) (applied : List (Nat × Nat)) :
    List Entry → Nat → ThreadSet × List (Nat × Nat)
  | [], _ => (ts, applied)
  | e :: rest, i =>
      match e with
      | .atomic st =>
          let (ts1, applied1) := fenceHistory i ts applied st.history.stores 0
          fenceEntries ts1 applied1 rest (i + 1)
      | _ => fenceEntries ts applied rest (i + 1)

/-- Source: `fence(order)` from `rt/atomic.rs`: any ordering other than `Acquire`
hits the leading assertion (`none`, nothing modified); `Acquire` applies
`sync_load(Acquire)` to every first-seen store of every atomic.  The
trailing causality increment of the `rt::synchronize` wrapper is included.
The second component is the ghost list of `(entry index, store index)`
pairs that received a `sync_load`; stores themselves are unchanged. -/
def fence (order : Ordering) (objs : Store) (ts : ThreadSet) :
    Option (ThreadSet × List (Nat × Nat)) :=
  if order = .acquire then
    let (ts1, applied) := fenceEntries ts [] objs.entries 0
    some (ts1.active_causality_inc, applied)
  else
    none

/-- Source: `Atomic::new`: the initial `State` pushed before inserting the object —
one store carrying the creator's causality, seq-cst flag `false`. -/
def Atomic.newState (ts : ThreadSet) : AtomicState :=
  { last_access := none
    history :=
      { stores :=
          [{ sync := Synchronize.new ts.max
             first_seen := FirstSeen.new ts
             seq_cst := false }] } }

/-- One operation on a single atomic, with the data the surrounding
execution supplies: the `Path`'s pick for a load and the user closure's
outcome for an rmw. -/
inductive AtomicOp where
  | load (order : Ordering) (pick : Nat)
  | store (order : Ordering)
  | rmw (fres : Except Unit Unit) (success failure : Ordering)
  | fenceAcq

/-- Apply one operation to an atomic's state (the thread-set side effects
are dropped; `fence` does not touch the history at all). -/
def AtomicOp.apply (op : AtomicOp) (s : AtomicState) (ts : ThreadSet) :
    AtomicState :=
  match op with
  | .load order pick => (s.load ts order pick).1
  | .store order => (s.store ts order).1
  | .rmw fres success failure => (AtomicState.rmw Unit s ts fres success failure).2.1
  | .fenceAcq => s

/-- Apply a sequence of operations, each with the thread set the scheduler
presents at that step. -/
def applyOps (s : AtomicState) : List (AtomicOp × ThreadSet) → AtomicState
  | [] => s
  | (op, ts) :: rest => applyOps (op.apply s ts) rest

/-- The iteration loop of `Builder::check` (`model.rs`), reduced to its
control flow.  `i0` iterations have run so far; each pass increments `i`,
and only when `i % checkpoint_interval == 0` are the `max_permutations`
and `max_duration` bounds consulted — a hit returns with `i0` iterations
explored, before running iteration `i`.  Otherwise the iteration runs
(`step i` is `Path::step`'s answer after it) and a `false` step ends the
search with `i` iterations explored.  `none` means the fuel ran out. -/
def check_loop (interval : Nat) (max_permutations : Option Nat)
    (duration_exceeded : Nat → Bool) (step : Nat → Bool) :
    Nat → Nat → Option Nat
  | 0, _ => none
  | fuel + 1, i0 =>
      let i := i0 + 1
      if i % interval = 0 &&
          ((match max_permutations with
            | some n => decide (n ≤ i)
            | none => false) || duration_exceeded i) then
        some i0
      else if step i then
        check_loop interval max_permutations duration_exceeded step fuel i
      else
        some i

/-- Source: `Builder::check`, observed as the number of explored iterations. -/
def Builder.check_explored (interval : Nat) (max_permutations : Option Nat)
    (duration_exceeded : Nat → Bool) (step : Nat → Bool) (fuel : Nat) :
    Option Nat :=
  check_loop interval max_permutations duration_exceeded step fuel 0

/-! ## Helper lemmas -/

theorem VersionVec.get_join (a b : VersionVec) (i : Nat) :
    (a.join b).get i = max (a.get i) (b.get i) := by
  induction a generalizing b i with
  | nil =>
      simp [VersionVec.join, VersionVec.get]
  | cons x xs ih =>
      cases b with
      | nil => simp [VersionVec.join, VersionVec.get]
      | cons y ys =>
          cases i with
          | zero => simp [VersionVec.join, VersionVec.get]
          | succ n =>
              simpa [VersionVec.join, VersionVec.get] using ih ys n

theorem VersionVec.length_join (a b : VersionVec) :
    (a.join b).length = max a.length b.length := by
  induction a generalizing b with
  | nil => simp [VersionVec.join]
  | cons x xs ih =>
      cases b with
      | nil => simp [VersionVec.join]
      | cons y ys =>
          simp [VersionVec.join, ih, Nat.succ_max_succ]

theorem VersionVec.le_iff (a b : VersionVec) :
    VersionVec.le a b = true ↔ ∀ i, a.get i ≤ b.get i := by
  unfold VersionVec.le
  rw [List.all_eq_true]
  constructor
  · intro h i
    by_cases hi : i < max a.length b.length
    · simpa [Nat.ble_eq] using h i (List.mem_range.mpr hi)
    · have hla : a.length ≤ i := le_trans (le_max_left _ _) (le_of_not_lt hi)
      have hlb : b.length ≤ i := le_trans (le_max_right _ _) (le_of_not_lt hi)
      unfold VersionVec.get
      rw [List.getD_eq_default _ _ hla, List.getD_eq_default _ _ hlb]
  · intro h x hx
    simpa [Nat.ble_eq] using h x

theorem getD_replicate_none (k i : Nat) :
    List.getD (List.replicate k (none : Option Nat)) i none = none := by
  induction k generalizing i with
  | zero => simp
  | succ k ih =>
      cases i with
      | zero => simp [List.replicate]
      | succ n => simpa [List.replicate] using ih n

theorem getD_append_pad (l : List (Option Nat)) (k i : Nat) :
    List.getD (l ++ List.replicate k none) i none = List.getD l i none := by
  by_cases h : i < l.length
  · exact List.getD_append _ _ _ _ h
  · rw [List.getD_append_right _ _ _ _ (le_of_not_lt h),
        List.getD_eq_default _ _ (le_of_not_lt h), getD_replicate_none]

theorem getD_set_self {α : Type} (l : List α) (i : Nat) (a d : α)
    (h : i < l.length) : (l.set i a).getD i d = a := by
  rw [List.getD_eq_getD_get?, List.get?_set_eq_of_lt _ h]
  rfl

theorem getD_set_ne {α : Type} (l : List α) (i j : Nat) (a d : α)
    (h : i ≠ j) : (l.set i a).getD j d = l.getD j d := by
  rw [List.getD_eq_getD_get?, List.get?_set_ne _ _ h, ← List.getD_eq_getD_get?]

theorem getD_pad (fs : FirstSeen) (n i : Nat) :
    List.getD (fs.pad n) i none = List.getD fs i none := by
  unfold FirstSeen.pad
  split
  · exact getD_append_pad _ _ _
  · rfl

theorem length_pad (fs : FirstSeen) (n : Nat) :
    List.length (fs.pad n) = max (List.length fs) n := by
  unfold FirstSeen.pad
  split
  · rename_i h
    rw [List.length_append, List.length_replicate]
    omega
  · rename_i h
    omega

/-- A `touch` does not disturb any slot other than the active thread's. -/
theorem touch_getD_frame (fs : FirstSeen) (ts : ThreadSet) (i : Nat)
    (hne : i ≠ (ts.active_id).as_usize) :
    List.getD (fs.touch ts) i none = List.getD fs i none := by
  simp only [FirstSeen.touch]
  split
  · rw [getD_set_ne _ _ _ _ _ (Ne.symm hne), getD_pad]
  · exact getD_pad _ _ _

/-- A `touch` never overwrites an existing first-seen record. -/
theorem touch_getD_some (fs : FirstSeen) (ts : ThreadSet) (v : Nat)
    (hv : List.getD fs (ts.active_id).as_usize none = some v) :
    List.getD (fs.touch ts) (ts.active_id).as_usize none = some v := by
  simp only [FirstSeen.touch]
  split
  · rename_i hcond
    rw [getD_pad] at hcond
    rw [hv] at hcond
    exact absurd hcond (by simp)
  · rw [getD_pad]
    exact hv

/-- A `touch` on an unrecorded slot records the active thread's current
atomic version. -/
theorem touch_getD_new (fs : FirstSeen) (ts : ThreadSet)
    (hnone : List.getD fs (ts.active_id).as_usize none = none)
    (hin : (ts.active_id).as_usize < List.length (ts.activeThread).causality) :
    List.getD (fs.touch ts) (ts.active_id).as_usize none =
      some ts.active_atomic_version := by
  simp only [FirstSeen.touch]
  split
  · apply getD_set_self
    rw [length_pad]
    omega
  · rename_i hcond
    rw [getD_pad, hnone] at hcond
    exact absurd rfl hcond

/-! ## C10: first-seen records are write-once -/

/-- C10: per-thread first-seen tracking is write-once.  `FirstSeen::touch`
records the active thread's current atomic version only when that thread
has no recorded version yet; an existing record is never changed, other
threads' records are untouched, and a subsequent touch by the same thread
index leaves the record as the first touch left it. -/
theorem first_seen_touch_write_once (fs : FirstSeen) (ts ts' : ThreadSet)
    (hin : (ts.active_id).as_usize < List.length (ts.activeThread).causality)
    (hsame : (ts'.active_id).as_usize = (ts.active_id).as_usize) :
    (List.getD fs (ts.active_id).as_usize none = none →
      List.getD (fs.touch ts) (ts.active_id).as_usize none =
        some ts.active_atomic_version)
    ∧ (∀ v, List.getD fs (ts.active_id).as_usize none = some v →
        List.getD (fs.touch ts) (ts.active_id).as_usize none = some v)
    ∧ (∀ tid, tid ≠ (ts.active_id).as_usize →
        List.getD (fs.touch ts) tid none = List.getD fs tid none)
    ∧ List.getD ((fs.touch ts).touch ts') (ts.active_id).as_usize none =
        List.getD (fs.touch ts) (ts.active_id).as_usize none := by
  refine ⟨fun hnone => touch_getD_new fs ts hnone hin,
          fun v hv => touch_getD_some fs ts v hv,
          fun tid hne => touch_getD_frame fs ts tid hne, ?_⟩
  -- after the first touch the active slot holds `some`, so the second
  -- touch (same thread index) leaves it unchanged
  obtain ⟨w, hw⟩ : ∃ w, List.getD (fs.touch ts) (ts.active_id).as_usize none
      = some w := by
    cases hx : List.getD fs (ts.active_id).as_usize none with
    | none => exact ⟨_, touch_getD_new fs ts hx hin⟩
    | some v => exact ⟨v, touch_getD_some fs ts v hx⟩
  have := touch_getD_some (fs.touch ts) ts' w (by rw [hsame]; exact hw)
  rw [hsame] at this
  rw [this, hw]

/-! ## C3: happens_before succeeds exactly on causally-ordered histories -/

/-- C3: `State::happens_before(vv)`'s assertion holds (no panic) if and only
if every recorded store's synchronize version vector is pointwise at or
before `vv`. -/
theorem happens_before_ok_iff_pointwise_le (s : AtomicState) (vv : VersionVec) :
    s.happens_before_ok vv = true ↔
      ∀ store ∈ s.history.stores, ∀ i,
        (store.sync.version_vec).get i ≤ vv.get i := by
  unfold AtomicState.happens_before_ok
  rw [List.all_eq_true]
  constructor
  · intro h store hst i
    exact (VersionVec.le_iff _ _).mp (h store hst) i
  · intro h store hst
    exact (VersionVec.le_iff _ _).mpr (h store hst)

/-! ## C7: thread creation is capped and monotonic -/

/-- C7: `Set::new_thread` succeeds exactly while the set holds fewer than
`max_threads` threads (reaching the cap is the assertion failure, `none`);
a successful call appends a thread whose index equals the previous thread
count, leaving existing threads unchanged, so consecutive indices are
preserved; `Set::new` starts the numbering at 0. -/
theorem new_thread_spec (ts : ThreadSet) :
    (List.length ts.threads < ts.max →
      ts.new_thread = some
        ({ ts with threads := ts.threads ++
            [Thread.new ⟨ts.execution_id, List.length ts.threads⟩ ts.maxThreads] },
         ⟨ts.execution_id, List.length ts.threads⟩))
    ∧ (ts.max ≤ List.length ts.threads → ts.new_thread = none)
    ∧ ((∀ k, k < List.length ts.threads →
          (List.getD ts.threads k default).id.id = k) →
        ∀ p, ts.new_thread = some p →
          ∀ k, k < List.length p.1.threads →
            (List.getD p.1.threads k default).id.id = k)
    ∧ (∀ e m, List.length (ThreadSet.new e m).threads = 1 ∧
        (List.getD (ThreadSet.new e m).threads 0 default).id.id = 0) := by
  refine ⟨?_, ?_, ?_, ?_⟩
  · intro h
    simp [ThreadSet.new_thread, h]
  · intro h
    simp [ThreadSet.new_thread, Nat.not_lt.mpr h]
  · intro hinv p hp k hk
    unfold ThreadSet.new_thread at hp
    split at hp
    · rename_i hlt
      cases hp
      simp only [List.length_append, List.length_cons, List.length_nil] at hk
      by_cases hcase : k < List.length ts.threads
      · rw [List.getD_append _ _ _ _ hcase]
        exact hinv k hcase
      · have hkeq : k = List.length ts.threads := by omega
        subst hkeq
        rw [List.getD_append_right _ _ _ _ (Nat.le_refl _)]
        simp [Thread.new]
    · cases hp
  · intro e m
    exact ⟨rfl, rfl⟩

/-- C7 witness: a concrete two-capacity set: the first `new_thread` yields
index 1, the second fails at the cap. -/
theorem new_thread_spec_witness :
    (ThreadSet.new 0 2).new_thread = some
      ({ ThreadSet.new 0 2 with
          threads := (ThreadSet.new 0 2).threads ++ [Thread.new ⟨0, 1⟩ 2] },
       ⟨0, 1⟩) ∧
    (∀ ts2 : ThreadSet, List.length ts2.threads = 2 → ts2.maxThreads = 2 →
      ts2.new_thread = none) := by
  constructor
  · exact (new_thread_spec (ThreadSet.new 0 2)).1 (by decide)
  · intro ts2 hl hm
    exact (new_thread_spec ts2).2.1 (by rw [hl, ThreadSet.max, hm])

/-! ## C6: typed object-store access -/

/-- C6: typed access through `Ref::get` / `Ref::get_mut` returns the stored
object when the entry at the index is the requested variant, and fails
fatally (`none`, the `expect` panic) when the stored variant does not match
the requested type — for every variant of the `objects!` macro. -/
theorem ref_typed_access_spec (s : Store) (i : Nat) (e : Entry)
    (he : List.get? s.entries i = some e) :
    ((∀ a, e = Entry.atomic a →
        Ref.get (T := AtomicState) ⟨i⟩ s = some a ∧
        Ref.get_mut (T := AtomicState) ⟨i⟩ s = some a)
      ∧ ((∀ a, ¬ e = Entry.atomic a) →
        Ref.get (T := AtomicState) ⟨i⟩ s = none ∧
        Ref.get_mut (T := AtomicState) ⟨i⟩ s = none))
    ∧ ((∀ a, e = Entry.alloc a →
        Ref.get (T := AllocState) ⟨i⟩ s = some a ∧
        Ref.get_mut (T := AllocState) ⟨i⟩ s = some a)
      ∧ ((∀ a, ¬ e = Entry.alloc a) →
        Ref.get (T := AllocState) ⟨i⟩ s = none ∧
        Ref.get_mut (T := AllocState) ⟨i⟩ s = none))
    ∧ ((∀ a, e = Entry.arc a →
        Ref.get (T := ArcState) ⟨i⟩ s = some a ∧
        Ref.get_mut (T := ArcState) ⟨i⟩ s = some a)
      ∧ ((∀ a, ¬ e = Entry.arc a) →
        Ref.get (T := ArcState) ⟨i⟩ s = none ∧
        Ref.get_mut (T := ArcState) ⟨i⟩ s = none))
    ∧ ((∀ a, e = Entry.mutex a →
        Ref.get (T := MutexState) ⟨i⟩ s = some a ∧
        Ref.get_mut (T := MutexState) ⟨i⟩ s = some a)
      ∧ ((∀ a, ¬ e = Entry.mutex a) →
        Ref.get (T := MutexState) ⟨i⟩ s = none ∧
        Ref.get_mut (T := MutexState) ⟨i⟩ s = none))
    ∧ ((∀ a, e = Entry.condvar a →
        Ref.get (T := CondvarState) ⟨i⟩ s = some a ∧
        Ref.get_mut (T := CondvarState) ⟨i⟩ s = some a)
      ∧ ((∀ a, ¬ e = Entry.condvar a) →
        Ref.get (T := CondvarState) ⟨i⟩ s = none ∧
        Ref.get_mut (T := CondvarState) ⟨i⟩ s = none))
    ∧ ((∀ a, e = Entry.notify a →
        Ref.get (T := NotifyState) ⟨i⟩ s = some a ∧
        Ref.get_mut (T := NotifyState) ⟨i⟩ s = some a)
      ∧ ((∀ a, ¬ e = Entry.notify a) →
        Ref.get (T := NotifyState) ⟨i⟩ s = none ∧
        Ref.get_mut (T := NotifyState) ⟨i⟩ s = none))
    ∧ ((∀ a, e = Entry.cell a →
        Ref.get (T := CellState) ⟨i⟩ s = some a ∧
        Ref.get_mut (T := CellState) ⟨i⟩ s = some a)
      ∧ ((∀ a, ¬ e = Entry.cell a) →
        Ref.get (T := CellState) ⟨i⟩ s = none ∧
        Ref.get_mut (T := CellState) ⟨i⟩ s = none)) := by
  simp only [Ref.get, Ref.get_mut, he, Option.bind]
  cases e <;>
    simp [Object.get_ref, Object.get_mut, objectAtomicState, objectAllocState,
      objectArcState, objectMutexState, objectCondvarState, objectNotifyState,
      objectCellState]

/-- C6 witness: a store holding one mutex entry — matching access returns
it, an atomic-typed access fails. -/
theorem ref_typed_access_spec_witness :
    Ref.get (T := MutexState) ⟨0⟩ ⟨[Entry.mutex ⟨7⟩]⟩ = some ⟨7⟩ ∧
    Ref.get_mut (T := MutexState) ⟨0⟩ ⟨[Entry.mutex ⟨7⟩]⟩ = some ⟨7⟩ ∧
    Ref.get (T := AtomicState) ⟨0⟩ ⟨[Entry.mutex ⟨7⟩]⟩ = none := by
  have h := ref_typed_access_spec ⟨[Entry.mutex ⟨7⟩]⟩ 0 (Entry.mutex ⟨7⟩) rfl
  refine ⟨(h.2.2.2.1.1 ⟨7⟩ rfl).1, (h.2.2.2.1.1 ⟨7⟩ rfl).2, ?_⟩
  exact (h.1.2 (fun a hcontra => Entry.noConfusion hcontra)).1

/-! ## C8: object-store insertion round-trip -/

/-- C8: `Store::insert` appends exactly one entry — the returned typed
index equals the store length before insertion, the new entry list is the
old one plus the inserted entry (so no existing entry changes), and
`Ref::get` / `Ref::get_mut` on the updated store return the inserted
object.  The two hypotheses are the laws every `objects!`-generated
`Object` impl satisfies by construction. -/
theorem store_insert_roundtrip {T : Type} [Object T] (s : Store) (o : T)
    (href : Object.get_ref (Object.into_entry o) = some o)
    (hmut : Object.get_mut (Object.into_entry o) = some o) :
    ((s.insert o).2).index = List.length s.entries
    ∧ ((s.insert o).1).entries = s.entries ++ [Object.into_entry o]
    ∧ List.length ((s.insert o).1).entries = List.length s.entries + 1
    ∧ Ref.get ((s.insert o).2) ((s.insert o).1) = some o
    ∧ Ref.get_mut ((s.insert o).2) ((s.insert o).1) = some o := by
  refine ⟨rfl, rfl, by simp [Store.insert], ?_, ?_⟩
  · simp [Store.insert, Ref.get, List.get?_concat_length, href]
  · simp [Store.insert, Ref.get_mut, List.get?_concat_length, hmut]

/-- C8 witness: inserting an `ArcState` into a one-entry store yields index
1 and reads back. -/
theorem store_insert_roundtrip_witness :
    ((Store.insert ⟨[Entry.alloc ⟨1⟩]⟩ (⟨5⟩ : ArcState)).2).index = 1 ∧
    Ref.get ((Store.insert ⟨[Entry.alloc ⟨1⟩]⟩ (⟨5⟩ : ArcState)).2)
        ((Store.insert ⟨[Entry.alloc ⟨1⟩]⟩ (⟨5⟩ : ArcState)).1) =
      some (⟨5⟩ : ArcState) :=
  ⟨(store_insert_roundtrip ⟨[Entry.alloc ⟨1⟩]⟩ (⟨5⟩ : ArcState) rfl rfl).1,
   (store_insert_roundtrip ⟨[Entry.alloc ⟨1⟩]⟩ (⟨5⟩ : ArcState) rfl rfl).2.2.2.1⟩

/-! ## C9: the store history is never empty -/

theorem op_length_mono (op : AtomicOp) (s : AtomicState) (ts : ThreadSet) :
    List.length s.history.stores ≤
      List.length (op.apply s ts).history.stores := by
  cases op with
  | load order pick =>
      simp [AtomicOp.apply, AtomicState.load, History.updateStore]
  | store order =>
      simp [AtomicOp.apply, AtomicState.store, Synchronize.sync_store]
  | rmw fres success failure =>
      cases fres with
      | error e => simp [AtomicOp.apply, AtomicState.rmw, History.updateStore]
      | ok u => simp [AtomicOp.apply, AtomicState.rmw, History.updateStore]
  | fenceAcq => exact Nat.le_refl _

theorem applyOps_length_mono (ops : List (AtomicOp × ThreadSet)) (s : AtomicState) :
    List.length s.history.stores ≤
      List.length (applyOps s ops).history.stores := by
  induction ops generalizing s with
  | nil => exact Nat.le_refl _
  | cons p rest ih =>
      exact le_trans (op_length_mono p.1 s p.2) (ih _)

/-- C9: every atomic's store history is non-empty at all times.
`Atomic::new` starts the history with one store whose seq-cst flag is
`false`, and no sequence of `load` / `store` / `rmw` / `fence` operations
ever removes a store; hence `rmw`'s latest-index computation
(length − 1) always names a valid index. -/
theorem atomic_history_nonempty (ts0 : ThreadSet)
    (ops : List (AtomicOp × ThreadSet)) :
    List.length (Atomic.newState ts0).history.stores = 1
    ∧ (List.getD (Atomic.newState ts0).history.stores 0 default).seq_cst = false
    ∧ 1 ≤ List.length (applyOps (Atomic.newState ts0) ops).history.stores
    ∧ List.length (applyOps (Atomic.newState ts0) ops).history.stores - 1 <
        List.length (applyOps (Atomic.newState ts0) ops).history.stores := by
  have h1 : List.length (Atomic.newState ts0).history.stores = 1 := rfl
  have h3 : 1 ≤ List.length (applyOps (Atomic.newState ts0) ops).history.stores := by
    have := applyOps_length_mono ops (Atomic.newState ts0)
    omega
  exact ⟨h1, rfl, h3, by omega⟩

/-! ## C2: rmw operates only on the latest store -/

theorem updateStore_getD (h : History) (i : Nat)
    (f : AtomicStore → AtomicStore) (hlt : i < List.length h.stores) :
    List.getD (h.updateStore i f).stores i default =
      f (List.getD h.stores i default) := by
  unfold History.updateStore
  exact getD_set_self _ _ _ _ hlt

theorem updateStore_getD_ne (h : History) (i k : Nat)
    (f : AtomicStore → AtomicStore) (hne : i ≠ k) :
    List.getD (h.updateStore i f).stores k default =
      List.getD h.stores k default := by
  unfold History.updateStore
  exact getD_set_ne _ _ _ _ _ hne

theorem updateStore_length (h : History) (i : Nat)
    (f : AtomicStore → AtomicStore) :
    List.length (h.updateStore i f).stores = List.length h.stores := by
  simp [History.updateStore]

/-- C2: with a non-empty history, `rmw` targets only the latest store
(index = length − 1).  On `Err`: `sync_load(failure)` is applied against
that store's `Synchronize`, no store is appended, every store's
`Synchronize` and seq-cst flag are unchanged, and the error is returned.
On `Ok`: `sync_load(success)` is applied, exactly one store is appended
whose `Synchronize` is the prior latest store's clone with
`sync_store(success)` applied, and `Ok` with the prior latest index is
returned. -/
theorem rmw_latest_store_spec (ε : Type) (s : AtomicState) (ts : ThreadSet)
    (success failure : Ordering) (hne : s.history.stores ≠ []) :
    (∀ e : ε,
      (AtomicState.rmw ε s ts (.error e) success failure).1 = .error e
      ∧ List.length (AtomicState.rmw ε s ts (.error e) success failure).2.1.history.stores
          = List.length s.history.stores
      ∧ (∀ k, k ≠ List.length s.history.stores - 1 →
          List.getD (AtomicState.rmw ε s ts (.error e) success failure).2.1.history.stores k default
            = List.getD s.history.stores k default)
      ∧ (List.getD (AtomicState.rmw ε s ts (.error e) success failure).2.1.history.stores
            (List.length s.history.stores - 1) default).sync
          = (List.getD s.history.stores (List.length s.history.stores - 1) default).sync
      ∧ (AtomicState.rmw ε s ts (.error e) success failure).2.2
          = ((List.getD s.history.stores (List.length s.history.stores - 1) default).sync).sync_load
              ts failure)
    ∧ ((AtomicState.rmw ε s ts (.ok ()) success failure).1
          = .ok (List.length s.history.stores - 1)
      ∧ List.length (AtomicState.rmw ε s ts (.ok ()) success failure).2.1.history.stores
          = List.length s.history.stores + 1
      ∧ (∀ k, k ≠ List.length s.history.stores - 1 → k < List.length s.history.stores →
          List.getD (AtomicState.rmw ε s ts (.ok ()) success failure).2.1.history.stores k default
            = List.getD s.history.stores k default)
      ∧ (List.getD (AtomicState.rmw ε s ts (.ok ()) success failure).2.1.history.stores
            (List.length s.history.stores - 1) default).sync
          = (List.getD s.history.stores (List.length s.history.stores - 1) default).sync
      ∧ List.getD (AtomicState.rmw ε s ts (.ok ()) success failure).2.1.history.stores
            (List.length s.history.stores) default
          = { sync :=
                (Synchronize.sync_store
                  (List.getD s.history.stores (List.length s.history.stores - 1) default).sync
                  (((List.getD s.history.stores (List.length s.history.stores - 1) default).sync).sync_load ts success)
                  success).1
              first_seen := FirstSeen.new
                (((List.getD s.history.stores (List.length s.history.stores - 1) default).sync).sync_load ts success)
              seq_cst := is_seq_cst success }
      ∧ (AtomicState.rmw ε s ts (.ok ()) success failure).2.2
          = (Synchronize.sync_store
              (List.getD s.history.stores (List.length s.history.stores - 1) default).sync
              (((List.getD s.history.stores (List.length s.history.stores - 1) default).sync).sync_load ts success)
              success).2) := by
  have hlen : 0 < List.length s.history.stores := List.length_pos.mpr hne
  have hlt : List.length s.history.stores - 1 < List.length s.history.stores := by
    omega
  have hsync : (List.getD
      (s.history.updateStore (List.length s.history.stores - 1)
        (fun st => { st with first_seen := st.first_seen.touch ts })).stores
      (List.length s.history.stores - 1) default).sync
      = (List.getD s.history.stores (List.length s.history.stores - 1) default).sync := by
    rw [updateStore_getD _ _ _ hlt]
  constructor
  · intro e
    refine ⟨rfl, ?_, ?_, ?_, ?_⟩
    · simp [AtomicState.rmw, updateStore_length]
    · intro k hk
      simp only [AtomicState.rmw]
      exact updateStore_getD_ne _ _ _ _ (fun h => hk h.symm)
    · simpa [AtomicState.rmw] using hsync
    · simp only [AtomicState.rmw]
      rw [hsync]
  · refine ⟨rfl, ?_, ?_, ?_, ?_, ?_⟩
    · simp [AtomicState.rmw, updateStore_length]
    · intro k hk hklt
      simp only [AtomicState.rmw]
      rw [List.getD_append _ _ _ _ (by rwa [updateStore_length])]
      exact updateStore_getD_ne _ _ _ _ (fun h => hk h.symm)
    · simp only [AtomicState.rmw]
      rw [List.getD_append _ _ _ _ (by rwa [updateStore_length]), hsync]
    · simp only [AtomicState.rmw]
      rw [List.getD_append_right _ _ _ _ (by rw [updateStore_length]),
          updateStore_length]
      rw [hsync]
      simp
    · simp only [AtomicState.rmw]
      rw [hsync]

/-- C2 witness: a one-store history; the failed rmw keeps one store, the
successful one appends a second. -/
theorem rmw_latest_store_spec_witness :
    ({ last_access := none, history := { stores := [default] } } : AtomicState).history.stores ≠ []
    ∧ (AtomicState.rmw Nat
        { last_access := none, history := { stores := [default] } }
        (ThreadSet.new 0 2) (.error 3) .relaxed .relaxed).1 = .error 3
    ∧ (AtomicState.rmw Nat
        { last_access := none, history := { stores := [default] } }
        (ThreadSet.new 0 2) (.ok ()) .relaxed .relaxed).1 = .ok 0 := by
  have h := rmw_latest_store_spec Nat
    { last_access := none, history := { stores := [default] } }
    (ThreadSet.new 0 2) .relaxed .relaxed (by simp)
  exact ⟨by simp, (h.1 3).1, h.2.1⟩

/-! ## C5: the permutation bound is only consulted at checkpoint
intervals -/

theorem check_loop_invariant (interval n : Nat) (fuel : Nat) :
    ∀ i0 e, check_loop interval (some n) (fun i => false) (fun i => true)
        fuel i0 = some e →
      (∀ j, i0 < j → j ≤ e → ¬(j % interval = 0 ∧ n ≤ j))
      ∧ i0 ≤ e ∧ (e + 1) % interval = 0 ∧ n ≤ e + 1 := by
  induction fuel with
  | zero =>
      intro i0 e h
      simp [check_loop] at h
  | succ fuel ih =>
      intro i0 e h
      rw [check_loop] at h
      by_cases hc : (i0 + 1) % interval = 0 ∧ n ≤ i0 + 1
      · rw [if_pos (by simp [hc.1, hc.2])] at h
        cases h
        exact ⟨fun j hj1 hj2 _ => by omega, Nat.le_refl _, hc.1, hc.2⟩
      · rw [if_neg (by simpa using fun h1 h2 => hc ⟨h1, h2⟩), if_pos rfl] at h
        obtain ⟨hrange, hle, hmod, hn⟩ := ih (i0 + 1) e h
        refine ⟨?_, by omega, hmod, hn⟩
        intro j hj1 hj2
        by_cases hj : j = i0 + 1
        · subst hj
          exact hc
        · exact hrange j (by omega) hj2

/-- C5 counterexample: with `checkpoint_interval = 3` and
`max_permutations = Some 1` (and a path that never exhausts), `check`
explores 2 permutations — more than the bound of 1 — because the bound is
only consulted when `i % checkpoint_interval == 0`. -/
theorem check_exceeds_max_permutations :
    Builder.check_explored 3 (some 1) (fun i => false) (fun i => true) 10
        = some 2
    ∧ 1 < 2 := by
  constructor
  · decide
  · decide

/-- C5 amended: `Builder::check` consults `max_permutations = Some n` only
at iteration indices divisible by `checkpoint_interval`; with a
never-exhausting path it returns after `e` explored iterations where
`e + 1` is the first positive multiple of the interval that reaches `n` —
so `e + 1` may exceed `n` by up to `interval − 1`, and the search ends,
reporting partial completion, rather than failing. -/
theorem check_explored_interval_bound (interval n fuel e : Nat)
    (hi : 1 ≤ interval) (hn : 1 ≤ n)
    (h : Builder.check_explored interval (some n) (fun i => false)
        (fun i => true) fuel = some e) :
    n ≤ e + 1 ∧ (e + 1) % interval = 0 ∧ e + 1 < n + interval := by
  obtain ⟨hnone, h0, hmod, hle⟩ :=
    check_loop_invariant interval n fuel 0 e h
  refine ⟨hle, hmod, ?_⟩
  by_contra hcon
  push_neg at hcon
  have hdvd : interval ∣ e + 1 := Nat.dvd_of_mod_eq_zero hmod
  obtain ⟨k, hk⟩ := hdvd
  cases k with
  | zero =>
      rw [Nat.mul_zero] at hk
      omega
  | succ k =>
      rw [Nat.mul_succ] at hk
      have hjmod : (e + 1 - interval) % interval = 0 := by
        have heq : e + 1 - interval = interval * k := by omega
        rw [heq]
        exact Nat.mul_mod_right _ _
      exact hnone (e + 1 - interval) (by omega) (by omega) ⟨hjmod, by omega⟩

/-- C5 witness for the amended bound at interval 3, n = 1, explored 2. -/
theorem check_explored_interval_bound_witness :
    (1 : Nat) ≤ 3 ∧ (1 : Nat) ≤ 1 ∧
    Builder.check_explored 3 (some 1) (fun i => false) (fun i => true) 10
        = some 2 ∧
    ((1 : Nat) ≤ 2 + 1 ∧ (2 + 1) % 3 = 0 ∧ 2 + 1 < 1 + 3) :=
  ⟨by decide, by decide, by decide,
   check_explored_interval_bound 3 1 10 2 (by decide) (by decide) (by decide)⟩

/-! ## C1: the candidate set offered by pick_store -/

/-- A store at index `k` "reaches causality" during the `pick_store` walk:
it is seen before the active thread's last yield, causally observed by the
loading thread, or a seq-cst store under a seq-cst load. -/
def causalAt (stores : List AtomicStore) (ts : ThreadSet) (order : Ordering)
    (k : Nat) : Bool :=
  let st := List.getD stores k default
  st.first_seen.is_seen_before_yield ts ||
    st.first_seen.is_seen_by_current ts ||
    (is_seq_cst order && st.seq_cst)

/-- Membership in the `pick_store` walk once the first (newest) store has
been passed (`first = false`): exactly the indices below `j` all of whose
newer indices (below `j`) are non-causal, provided causality was not
already reached and the store itself is not behind the last yield. -/
theorem pickAux_false_mem (stores : List AtomicStore) (ts : ThreadSet)
    (order : Ordering) (j : Nat) (inC : Bool) (m : Nat) :
    m ∈ pickAux stores ts order j inC false ↔
      inC = false ∧ m < j
      ∧ (∀ k, m < k → k < j → causalAt stores ts order k = false)
      ∧ (List.getD stores m default).first_seen.is_seen_before_yield ts
          = false := by
  induction j generalizing inC with
  | zero => simp [pickAux]
  | succ j ih =>
      rw [pickAux]
      by_cases hby :
          (List.getD stores j default).first_seen.is_seen_before_yield ts = true
      · rw [if_pos hby]
        simp only [Bool.false_eq_true, if_false, List.not_mem_nil, false_iff]
        rintro ⟨hinC, hmlt, hnoc, hmby⟩
        by_cases hmj : m = j
        · subst hmj
          rw [hby] at hmby
          exact absurd hmby (by simp)
        · have := hnoc j (by omega) (by omega)
          rw [causalAt] at this
          simp only [hby, Bool.true_or] at this
          exact absurd this (by simp)
      · rw [if_neg hby]
        cases inC with
        | true =>
            simp only [if_true, List.not_mem_nil, false_iff]
            rintro ⟨hinC, _, _, _⟩
            exact absurd hinC (by simp)
        | false =>
            simp only [Bool.false_eq_true, if_false, List.mem_cons, ih]
            have hby' :
                (List.getD stores j default).first_seen.is_seen_before_yield ts
                  = false := by
              simpa using hby
            constructor
            · rintro (rfl | ⟨hinC, hmlt, hnoc, hmby⟩)
              · exact ⟨trivial, by omega, fun k hk1 hk2 => by omega, hby'⟩
              · refine ⟨trivial, by omega, ?_, hmby⟩
                intro k hk1 hk2
                by_cases hkj : k = j
                · subst hkj
                  rcases Bool.or_eq_false_iff.mp hinC with ⟨hsc, hsbc⟩
                  simp only [causalAt, hby', hsbc, hsc, Bool.false_or,
                    Bool.or_false]
                · exact hnoc k hk1 (by omega)
            · rintro ⟨_, hmlt, hnoc, hmby⟩
              by_cases hmj : m = j
              · exact Or.inl hmj
              · right
                have hj : causalAt stores ts order j = false :=
                  hnoc j (by omega) (by omega)
                simp only [causalAt, hby', Bool.false_or] at hj
                rcases Bool.or_eq_false_iff.mp hj with ⟨hsbc, hsc⟩
                refine ⟨by simp only [hsc, hsbc, Bool.or_self], by omega, ?_, hmby⟩
                intro k hk1 hk2
                exact hnoc k hk1 (by omega)

/-- C1 amended: the candidate indices `pick_store` offers to the `Path`
are exactly those `m` such that every newer store is non-causal (not seen
before the loader's last yield, not causally observed by the loader, and
not a seq-cst store under a seq-cst load), with the exception the claim
omits: a store the loading thread first saw at or before its last yield is
offered only when it is the newest store of the history. -/
theorem pick_store_candidates_characterization (h : History) (ts : ThreadSet)
    (order : Ordering) (m : Nat) :
    m ∈ h.pick_store_candidates ts order ↔
      m < List.length h.stores
      ∧ (∀ k, m < k → k < List.length h.stores →
          causalAt h.stores ts order k = false)
      ∧ ((List.getD h.stores m default).first_seen.is_seen_before_yield ts
            = true →
          m = List.length h.stores - 1) := by
  unfold History.pick_store_candidates
  cases hn : List.length h.stores with
  | zero => simp [pickAux]
  | succ j =>
      rw [pickAux]
      by_cases hby :
          (List.getD h.stores j default).first_seen.is_seen_before_yield ts
            = true
      · rw [if_pos hby]
        simp only [if_true, List.mem_cons]
        constructor
        · rintro (rfl | hmem)
          · exact ⟨by omega, fun k hk1 hk2 => by omega, fun _ => by omega⟩
          · have := (pickAux_false_mem h.stores ts order j true m).mp hmem
            exact absurd this.1 (by simp)
        · rintro ⟨hmlt, hnoc, hbyimp⟩
          by_cases hmj : m = j
          · exact Or.inl hmj
          · exfalso
            have := hnoc j (by omega) (by omega)
            rw [causalAt] at this
            simp only [hby, Bool.true_or] at this
            exact absurd this (by simp)
      · have hby' :
            (List.getD h.stores j default).first_seen.is_seen_before_yield ts
              = false := by
          simpa using hby
        rw [if_neg hby]
        simp only [Bool.false_eq_true, if_false, List.mem_cons,
          pickAux_false_mem]
        constructor
        · rintro (rfl | ⟨hinC, hmlt, hnoc, hmby⟩)
          · exact ⟨by omega, fun k hk1 hk2 => by omega, fun _ => by omega⟩
          · refine ⟨by omega, ?_, ?_⟩
            · intro k hk1 hk2
              by_cases hkj : k = j
              · subst hkj
                rcases Bool.or_eq_false_iff.mp hinC with ⟨hsc, hsbc⟩
                simp only [causalAt, hby', hsbc, hsc, Bool.false_or,
                  Bool.or_false]
              · exact hnoc k hk1 (by omega)
            · intro hcon
              rw [hmby] at hcon
              exact absurd hcon (by simp)
        · rintro ⟨hmlt, hnoc, hbyimp⟩
          by_cases hmj : m = j
          · exact Or.inl hmj
          · right
            have hj : causalAt h.stores ts order j = false :=
              hnoc j (by omega) (by omega)
            simp only [causalAt, hby', Bool.false_or] at hj
            rcases Bool.or_eq_false_iff.mp hj with ⟨hsbc, hsc⟩
            refine ⟨by simp only [hsc, hsbc, Bool.or_self], by omega, ?_, ?_⟩
            · intro k hk1 hk2
              exact hnoc k hk1 (by omega)
            · cases hx :
                  (List.getD h.stores m default).first_seen.is_seen_before_yield ts
              · rfl
              · exact absurd (hbyimp hx) (by omega)

/-- Context for the C1 counterexample: two threads, thread 0 active and
after a yield (its own clock was 5 at the yield, causality `[5, 0]`). -/
def c1Threads : ThreadSet :=
  { execution_id := 0
    threads :=
      [{ id := ⟨0, 0⟩, state := .yielded, critical := false,
         causality := [5, 0], dpor_vv := [0, 0], last_yield := some 5,
         yield_count := 1 },
       { id := ⟨0, 1⟩, state := .runnable, critical := false,
         causality := [0, 0], dpor_vv := [0, 0], last_yield := none,
         yield_count := 0 }]
    active := some 0
    seq_cst_causality := [0, 0]
    maxThreads := 2 }

/-- History for the C1 counterexample: store 0 was first seen by thread 0
at version 3 (before its yield at 5); store 1 was produced by thread 1
(first seen at thread 1's version 7) and is not yet within thread 0's
causality. -/
def c1History : History :=
  { stores :=
      [{ sync := ⟨[0, 0]⟩, first_seen := [some 3, none], seq_cst := false },
       { sync := ⟨[0, 9]⟩, first_seen := [none, some 7], seq_cst := false }] }

/-- C1 counterexample: store 0 is the most recent store causally observed
by the loading thread (store 1 is not observed), yet `pick_store` does not
offer it — the candidate set is `[1]` alone, because store 0 was seen
before the loader's last yield and is not the newest store.  This refutes
the claim that the most recent causally-observed store is always among the
candidates. -/
theorem pick_store_omits_observed_store :
    (List.getD c1History.stores 0 default).first_seen.is_seen_by_current
        c1Threads = true
    ∧ (List.getD c1History.stores 1 default).first_seen.is_seen_by_current
        c1Threads = false
    ∧ c1History.pick_store_candidates c1Threads .relaxed = [1]
    ∧ ¬ (0 ∈ c1History.pick_store_candidates c1Threads .relaxed) := by
  decide

/-! ## C4: fence -/

/-- The ghost list of `(entry index, store index)` pairs receiving a
`sync_load(Acquire)` during `fence(Acquire)`. -/
def fenceApplied (objs : Store) (ts : ThreadSet) : List (Nat × Nat) :=
  (fenceEntries ts [] objs.entries 0).2

/-- The thread set after `fence(Acquire)` (including the trailing causality
increment of the `rt::synchronize` wrapper). -/
def fenceFinalTs (objs : Store) (ts : ThreadSet) : ThreadSet :=
  (fenceEntries ts [] objs.entries 0).1.active_causality_inc

/-- The active thread's causality only grows from `ts` to `ts'`. -/
def ThreadSet.causalityGrows (ts ts' : ThreadSet) : Prop :=
  ts'.activeIdx = ts.activeIdx
  ∧ List.length (ts.activeThread).causality ≤
      List.length (ts'.activeThread).causality
  ∧ ∀ i, (ts.activeThread).causality.get i ≤ (ts'.activeThread).causality.get i

theorem causalityGrows_refl (ts : ThreadSet) : ts.causalityGrows ts :=
  ⟨rfl, Nat.le_refl _, fun i => Nat.le_refl _⟩

theorem causalityGrows_trans {a b c : ThreadSet}
    (h1 : a.causalityGrows b) (h2 : b.causalityGrows c) :
    a.causalityGrows c :=
  ⟨h2.1.trans h1.1, h1.2.1.trans h2.2.1,
   fun i => (h1.2.2 i).trans (h2.2.2 i)⟩

theorem modifyActive_cases (ts : ThreadSet) (f : Thread → Thread) :
    (ts.activeIdx < List.length ts.threads
      ∧ (ts.modifyActive f).activeIdx = ts.activeIdx
      ∧ (ts.modifyActive f).activeThread = f ts.activeThread)
    ∨ (List.length ts.threads ≤ ts.activeIdx ∧ ts.modifyActive f = ts) := by
  by_cases h : ts.activeIdx < List.length ts.threads
  · left
    refine ⟨h, rfl, ?_⟩
    unfold ThreadSet.modifyActive ThreadSet.setThread ThreadSet.activeThread
      ThreadSet.activeIdx
    exact getD_set_self _ _ _ _ h
  · right
    refine ⟨le_of_not_lt h, ?_⟩
    unfold ThreadSet.modifyActive ThreadSet.setThread
    rw [List.set_eq_of_length_le (le_of_not_lt h)]

theorem modifyActive_join_grows (ts : ThreadSet) (v : VersionVec) :
    ts.causalityGrows
      (ts.modifyActive (fun t => { t with causality := t.causality.join v })) := by
  rcases modifyActive_cases ts
      (fun t => { t with causality := t.causality.join v }) with
    ⟨hlt, hidx, hat⟩ | ⟨hge, heq⟩
  · refine ⟨hidx, ?_, ?_⟩
    · rw [hat]
      simp only [VersionVec.length_join]
      exact le_max_left _ _
    · intro i
      rw [hat]
      simp only [VersionVec.get_join]
      exact le_max_left _ _
  · rw [heq]
    exact causalityGrows_refl ts

theorem sync_load_causalityGrows (sy : Synchronize) (ts : ThreadSet)
    (order : Ordering) : ts.causalityGrows (sy.sync_load ts order) := by
  cases order with
  | relaxed => exact causalityGrows_refl ts
  | release => exact causalityGrows_refl ts
  | acquire => exact modifyActive_join_grows ts sy.releaseVv
  | acqrel => exact modifyActive_join_grows ts sy.releaseVv
  | seqcst =>
      exact causalityGrows_trans (modifyActive_join_grows ts sy.releaseVv)
        (modifyActive_join_grows _ ts.seq_cst_causality)

theorem vv_get_inc (vv : VersionVec) (i j : Nat) :
    vv.get j ≤ (vv.inc i).get j := by
  unfold VersionVec.inc
  by_cases hij : i = j
  · subst hij
    by_cases hlen : i < List.length vv
    · simp only [VersionVec.get]
      rw [getD_set_self _ _ _ _ hlen]
      exact Nat.le_succ _
    · rw [List.set_eq_of_length_le (le_of_not_lt hlen)]
  · simp only [VersionVec.get]
    rw [getD_set_ne _ _ _ _ _ hij]

theorem inc_causalityGrows (ts : ThreadSet) :
    ts.causalityGrows ts.active_causality_inc := by
  unfold ThreadSet.active_causality_inc
  rcases modifyActive_cases ts
      (fun t => { t with causality := t.causality.inc ts.activeIdx }) with
    ⟨hlt, hidx, hat⟩ | ⟨hge, heq⟩
  · refine ⟨hidx, ?_, ?_⟩
    · rw [hat]
      simp [VersionVec.inc]
    · intro i
      rw [hat]
      exact vv_get_inc _ _ _
  · rw [heq]
    exact causalityGrows_refl ts

/-- Causal observation of a store is monotone in the observer's
causality. -/
theorem is_seen_by_current_mono (fs : FirstSeen) (ts ts' : ThreadSet)
    (hg : ts.causalityGrows ts')
    (h : fs.is_seen_by_current ts = true) :
    fs.is_seen_by_current ts' = true := by
  unfold FirstSeen.is_seen_by_current at h ⊢
  rw [List.any_eq_true] at h ⊢
  obtain ⟨tid, htid, hp⟩ := h
  have htid' : tid < List.length (ts.activeThread).causality :=
    List.mem_range.mp htid
  refine ⟨tid, List.mem_range.mpr (lt_of_lt_of_le htid' hg.2.1), ?_⟩
  cases hfs : List.getD fs tid none with
  | none =>
      rw [hfs] at hp
      exact absurd hp (by simp)
  | some v =>
      simp only [hfs, Nat.ble_eq] at hp ⊢
      exact hp.trans (hg.2.2 tid)

theorem fenceHistory_grows (objIdx : Nat) (l : List AtomicStore) :
    ∀ (ts : ThreadSet) (applied : List (Nat × Nat)) (j : Nat),
      ts.causalityGrows (fenceHistory objIdx ts applied l j).1 := by
  induction l with
  | nil => intro ts applied j; exact causalityGrows_refl ts
  | cons st rest ih =>
      intro ts applied j
      rw [fenceHistory]
      split
      · exact causalityGrows_trans
          (sync_load_causalityGrows st.sync ts .acquire) (ih _ _ _)
      · exact ih _ _ _

theorem fenceHistory_applied_mono (objIdx : Nat) (l : List AtomicStore) :
    ∀ (ts : ThreadSet) (applied : List (Nat × Nat)) (j : Nat)
      (x : Nat × Nat), x ∈ applied →
      x ∈ (fenceHistory objIdx ts applied l j).2 := by
  induction l with
  | nil => intro ts applied j x hx; exact hx
  | cons st rest ih =>
      intro ts applied j x hx
      rw [fenceHistory]
      split
      · exact ih _ _ _ _ (List.mem_append_left _ hx)
      · exact ih _ _ _ _ hx

theorem fenceHistory_applies_seen (objIdx : Nat) (l : List AtomicStore) :
    ∀ (ts : ThreadSet) (applied : List (Nat × Nat)) (j p : Nat)
      (stj : AtomicStore), List.get? l p = some stj →
      stj.first_seen.is_seen_by_current ts = true →
      (objIdx, j + p) ∈ (fenceHistory objIdx ts applied l j).2 := by
  induction l with
  | nil => intro ts applied j p stj hget; simp at hget
  | cons st rest ih =>
      intro ts applied j p stj hget hseen
      cases p with
      | zero =>
          rw [List.get?_cons_zero] at hget
          cases hget
          rw [fenceHistory, if_pos hseen]
          exact fenceHistory_applied_mono objIdx rest _ _ _ _
            (List.mem_append_right _ (List.mem_singleton.mpr rfl))
      | succ p =>
          rw [List.get?_cons_succ] at hget
          rw [fenceHistory]
          split
          · rename_i hst
            have hseen1 : stj.first_seen.is_seen_by_current
                (st.sync.sync_load ts .acquire) = true :=
              is_seen_by_current_mono _ _ _
                (sync_load_causalityGrows st.sync ts .acquire) hseen
            have := ih (st.sync.sync_load ts .acquire)
              (applied ++ [(objIdx, j)]) (j + 1) p stj hget hseen1
            simpa [Nat.add_assoc, Nat.add_comm 1 p] using this
          · have := ih ts applied (j + 1) p stj hget hseen
            simpa [Nat.add_assoc, Nat.add_comm 1 p] using this

theorem fenceHistory_applied_sound (objIdx : Nat) (l : List AtomicStore) :
    ∀ (ts : ThreadSet) (applied : List (Nat × Nat)) (j : Nat)
      (x : Nat × Nat), x ∈ (fenceHistory objIdx ts applied l j).2 →
      x ∈ applied ∨ ∃ p stj, List.get? l p = some stj ∧ x = (objIdx, j + p)
        ∧ stj.first_seen.is_seen_by_current
            (fenceHistory objIdx ts applied l j).1 = true := by
  induction l with
  | nil => intro ts applied j x hx; exact Or.inl hx
  | cons st rest ih =>
      intro ts applied j x hx
      rw [fenceHistory] at hx ⊢
      split at hx <;> rename_i hst
      · rw [if_pos hst]
        rcases ih _ _ _ _ hx with hin | ⟨p, stj, hget, hxeq, hseen⟩
        · rcases List.mem_append.mp hin with hin' | hin'
          · exact Or.inl hin'
          · right
            refine ⟨0, st, List.get?_cons_zero, ?_, ?_⟩
            · simpa using List.mem_singleton.mp hin'
            · exact is_seen_by_current_mono _ _ _
                (causalityGrows_trans
                  (sync_load_causalityGrows st.sync ts .acquire)
                  (fenceHistory_grows objIdx rest _ _ _)) hst
        · right
          refine ⟨p + 1, stj, by simpa using hget, ?_, hseen⟩
          rw [hxeq]
          congr 1
          omega
      · rw [if_neg hst]
        rcases ih _ _ _ _ hx with hin | ⟨p, stj, hget, hxeq, hseen⟩
        · exact Or.inl hin
        · right
          refine ⟨p + 1, stj, by simpa using hget, ?_, hseen⟩
          rw [hxeq]
          congr 1
          omega

theorem fenceEntries_grows (l : List Entry) :
    ∀ (ts : ThreadSet) (applied : List (Nat × Nat)) (i : Nat),
      ts.causalityGrows (fenceEntries ts applied l i).1 := by
  induction l with
  | nil => intro ts applied i; exact causalityGrows_refl ts
  | cons e rest ih =>
      intro ts applied i
      cases e with
      | atomic st =>
          simp only [fenceEntries]
          exact causalityGrows_trans
            (fenceHistory_grows i st.history.stores ts applied 0) (ih _ _ _)
      | alloc s => simp only [fenceEntries]; exact ih _ _ _
      | arc s => simp only [fenceEntries]; exact ih _ _ _
      | mutex s => simp only [fenceEntries]; exact ih _ _ _
      | condvar s => simp only [fenceEntries]; exact ih _ _ _
      | notify s => simp only [fenceEntries]; exact ih _ _ _
      | cell s => simp only [fenceEntries]; exact ih _ _ _

theorem fenceEntries_applied_mono (l : List Entry) :
    ∀ (ts : ThreadSet) (applied : List (Nat × Nat)) (i : Nat)
      (x : Nat × Nat), x ∈ applied →
      x ∈ (fenceEntries ts applied l i).2 := by
  induction l with
  | nil => intro ts applied i x hx; exact hx
  | cons e rest ih =>
      intro ts applied i x hx
      cases e with
      | atomic st =>
          simp only [fenceEntries]
          exact ih _ _ _ _
            (fenceHistory_applied_mono i st.history.stores ts applied 0 x hx)
      | alloc s => simp only [fenceEntries]; exact ih _ _ _ _ hx
      | arc s => simp only [fenceEntries]; exact ih _ _ _ _ hx
      | mutex s => simp only [fenceEntries]; exact ih _ _ _ _ hx
      | condvar s => simp only [fenceEntries]; exact ih _ _ _ _ hx
      | notify s => simp only [fenceEntries]; exact ih _ _ _ _ hx
      | cell s => simp only [fenceEntries]; exact ih _ _ _ _ hx

theorem fenceEntries_applies_seen (l : List Entry) :
    ∀ (ts : ThreadSet) (applied : List (Nat × Nat)) (i q p : Nat)
      (st : AtomicState) (stj : AtomicStore),
      List.get? l q = some (Entry.atomic st) →
      List.get? st.history.stores p = some stj →
      stj.first_seen.is_seen_by_current ts = true →
      (i + q, p) ∈ (fenceEntries ts applied l i).2 := by
  induction l with
  | nil => intro ts applied i q p st stj hget; simp at hget
  | cons e rest ih =>
      intro ts applied i q p st stj hget hgets hseen
      cases q with
      | zero =>
          rw [List.get?_cons_zero] at hget
          cases hget
          simp only [fenceEntries]
          apply fenceEntries_applied_mono
          have := fenceHistory_applies_seen i st.history.stores ts applied
            0 p stj hgets hseen
          simpa using this
      | succ q =>
          rw [List.get?_cons_succ] at hget
          have hiq : i + (q + 1) = (i + 1) + q := by omega
          rw [hiq]
          cases e with
          | atomic st' =>
              simp only [fenceEntries]
              refine ih _ _ _ _ _ _ _ hget hgets ?_
              exact is_seen_by_current_mono _ _ _
                (fenceHistory_grows i st'.history.stores ts applied 0) hseen
          | alloc s =>
              simp only [fenceEntries]; exact ih _ _ _ _ _ _ _ hget hgets hseen
          | arc s =>
              simp only [fenceEntries]; exact ih _ _ _ _ _ _ _ hget hgets hseen
          | mutex s =>
              simp only [fenceEntries]; exact ih _ _ _ _ _ _ _ hget hgets hseen
          | condvar s =>
              simp only [fenceEntries]; exact ih _ _ _ _ _ _ _ hget hgets hseen
          | notify s =>
              simp only [fenceEntries]; exact ih _ _ _ _ _ _ _ hget hgets hseen
          | cell s =>
              simp only [fenceEntries]; exact ih _ _ _ _ _ _ _ hget hgets hseen

theorem fenceEntries_applied_sound (l : List Entry) :
    ∀ (ts : ThreadSet) (applied : List (Nat × Nat)) (i : Nat)
      (x : Nat × Nat), x ∈ (fenceEntries ts applied l i).2 →
      x ∈ applied ∨ ∃ q st p stj,
        List.get? l q = some (Entry.atomic st)
        ∧ List.get? st.history.stores p = some stj
        ∧ x = (i + q, p)
        ∧ stj.first_seen.is_seen_by_current (fenceEntries ts applied l i).1
            = true := by
  induction l with
  | nil => intro ts applied i x hx; exact Or.inl hx
  | cons e rest ih =>
      intro ts applied i x hx
      cases e with
      | atomic st =>
          simp only [fenceEntries] at hx ⊢
          rcases ih _ _ _ _ hx with hin | ⟨q, st', p, stj, hget, hgets, hxeq, hseen⟩
          · rcases fenceHistory_applied_sound i st.history.stores ts applied
                0 x hin with hin' | ⟨p, stj, hgets, hxeq, hseen⟩
            · exact Or.inl hin'
            · right
              refine ⟨0, st, p, stj, List.get?_cons_zero, hgets,
                by simpa using hxeq, ?_⟩
              exact is_seen_by_current_mono _ _ _
                (fenceEntries_grows rest _ _ _) hseen
          · right
            refine ⟨q + 1, st', p, stj, by simpa using hget, hgets, ?_, hseen⟩
            rw [hxeq]
            congr 1
            omega
      | alloc s =>
          simp only [fenceEntries] at hx ⊢
          rcases ih _ _ _ _ hx with hin | ⟨q, st', p, stj, hget, hgets, hxeq, hseen⟩
          · exact Or.inl hin
          · exact Or.inr ⟨q + 1, st', p, stj, by simpa using hget, hgets,
              by rw [hxeq]; congr 1; omega, hseen⟩
      | arc s =>
          simp only [fenceEntries] at hx ⊢
          rcases ih _ _ _ _ hx with hin | ⟨q, st', p, stj, hget, hgets, hxeq, hseen⟩
          · exact Or.inl hin
          · exact Or.inr ⟨q + 1, st', p, stj, by simpa using hget, hgets,
              by rw [hxeq]; congr 1; omega, hseen⟩
      | mutex s =>
          simp only [fenceEntries] at hx ⊢
          rcases ih _ _ _ _ hx with hin | ⟨q, st', p, stj, hget, hgets, hxeq, hseen⟩
          · exact Or.inl hin
          · exact Or.inr ⟨q + 1, st', p, stj, by simpa using hget, hgets,
              by rw [hxeq]; congr 1; omega, hseen⟩
      | condvar s =>
          simp only [fenceEntries] at hx ⊢
          rcases ih _ _ _ _ hx with hin | ⟨q, st', p, stj, hget, hgets, hxeq, hseen⟩
          · exact Or.inl hin
          · exact Or.inr ⟨q + 1, st', p, stj, by simpa using hget, hgets,
              by rw [hxeq]; congr 1; omega, hseen⟩
      | notify s =>
          simp only [fenceEntries] at hx ⊢
          rcases ih _ _ _ _ hx with hin | ⟨q, st', p, stj, hget, hgets, hxeq, hseen⟩
          · exact Or.inl hin
          · exact Or.inr ⟨q + 1, st', p, stj, by simpa using hget, hgets,
              by rw [hxeq]; congr 1; omega, hseen⟩
      | cell s =>
          simp only [fenceEntries] at hx ⊢
          rcases ih _ _ _ _ hx with hin | ⟨q, st', p, stj, hget, hgets, hxeq, hseen⟩
          · exact Or.inl hin
          · exact Or.inr ⟨q + 1, st', p, stj, by simpa using hget, hgets,
              by rw [hxeq]; congr 1; omega, hseen⟩

/-- C4 amended: any fence ordering other than `Acquire` fails explicitly
(the leading assertion, modelled as `none`) without touching any state.
`fence(Acquire)` applies `sync_load(Acquire)` to *at least* every store of
every atomic that the current thread has first-seen when the fence begins,
and *only* to stores that are first-seen at the moment they are visited —
equivalently, first-seen under the fence's final causality.  (The claim's
"exactly those already first-seen, and no other store" fails: causality
acquired from an earlier store inside the same fence can make a later
store eligible.) -/
theorem fence_spec_amended (objs : Store) (ts : ThreadSet) :
    (∀ order : Ordering, order ≠ .acquire → fence order objs ts = none)
    ∧ fence .acquire objs ts = some (fenceFinalTs objs ts, fenceApplied objs ts)
    ∧ (∀ i st j stj,
        List.get? objs.entries i = some (Entry.atomic st) →
        List.get? st.history.stores j = some stj →
        stj.first_seen.is_seen_by_current ts = true →
        (i, j) ∈ fenceApplied objs ts)
    ∧ (∀ x, x ∈ fenceApplied objs ts → ∃ i st j stj,
        List.get? objs.entries i = some (Entry.atomic st)
        ∧ List.get? st.history.stores j = some stj
        ∧ x = (i, j)
        ∧ stj.first_seen.is_seen_by_current (fenceFinalTs objs ts) = true) := by
  refine ⟨?_, rfl, ?_, ?_⟩
  · intro order hne
    cases order with
    | acquire => exact absurd rfl hne
    | relaxed => rfl
    | release => rfl
    | acqrel => rfl
    | seqcst => rfl
  · intro i st j stj hget hgets hseen
    have := fenceEntries_applies_seen objs.entries ts [] 0 i j st stj
      hget hgets hseen
    simpa using this
  · intro x hx
    rcases fenceEntries_applied_sound objs.entries ts [] 0 x hx with
      hin | ⟨q, st, p, stj, hget, hgets, hxeq, hseen⟩
    · simp at hin
    · refine ⟨q, st, p, stj, hget, hgets, by simpa using hxeq, ?_⟩
      exact is_seen_by_current_mono _ _ _
        (inc_causalityGrows (fenceEntries ts [] objs.entries 0).1) hseen

/-- Oldest store of the C4 context: already seen by the active thread
(first seen at its version 3 ≤ 5), carrying release causality `[0, 7]`. -/
def c4StoreA : AtomicStore :=
  { sync := ⟨[0, 7]⟩, first_seen := [some 3, none], seq_cst := false }

/-- Newest store of the C4 context: first seen only by thread 1 at version
6 — not within the active thread's causality `[5, 0]` when the fence
starts, but within it after the fence acquires `[0, 7]` from the older
store. -/
def c4StoreB : AtomicStore :=
  { sync := ⟨[0, 9]⟩, first_seen := [none, some 6], seq_cst := false }

/-- The C4 atomic: history `[c4StoreA, c4StoreB]`. -/
def c4Atomic : AtomicState :=
  { last_access := none, history := { stores := [c4StoreA, c4StoreB] } }

/-- The C4 object store: one atomic entry. -/
def c4Objs : Store := { entries := [Entry.atomic c4Atomic] }

/-- The C4 thread set: two threads, thread 0 active with causality
`[5, 0]`. -/
def c4Ts : ThreadSet :=
  { execution_id := 0
    threads :=
      [{ id := ⟨0, 0⟩, state := .runnable, critical := false,
         causality := [5, 0], dpor_vv := [0, 0], last_yield := none,
         yield_count := 0 },
       { id := ⟨0, 1⟩, state := .runnable, critical := false,
         causality := [0, 6], dpor_vv := [0, 0], last_yield := none,
         yield_count := 0 }]
    active := some 0
    seq_cst_causality := [0, 0]
    maxThreads := 2 }

/-- C4 counterexample: store `(0, 1)` is not first-seen by the current
thread when the fence starts, yet `fence(Acquire)` applies `sync_load` to
it — the causality acquired from store `(0, 0)` earlier in the same fence
makes it eligible.  This refutes "applies sync_load ... to exactly those
stores that the current thread has already first-seen, and to no other
store". -/
theorem fence_applies_to_unseen_store :
    c4StoreB.first_seen.is_seen_by_current c4Ts = false
    ∧ fenceApplied c4Objs c4Ts = [(0, 0), (0, 1)]
    ∧ (0, 1) ∈ fenceApplied c4Objs c4Ts := by
  decide

/-- C4 witness for the amended fence theorem at the concrete context. -/
theorem fence_spec_amended_witness :
    fence .relaxed c4Objs c4Ts = none
    ∧ (0, 0) ∈ fenceApplied c4Objs c4Ts := by
  refine ⟨(fence_spec_amended c4Objs c4Ts).1 .relaxed (by decide), ?_⟩
  exact (fence_spec_amended c4Objs c4Ts).2.2.1 0 c4Atomic 0 c4StoreA
    rfl rfl (by decide)

/-- C10 witness: in the concrete two-thread context, touching an
unrecorded slot records version 5 (the active thread's clock), and a
second touch leaves the record unchanged. -/
theorem first_seen_touch_write_once_witness :
    List.getD (FirstSeen.touch [none, some 9] c4Ts) 0 none = some 5
    ∧ List.getD
        (FirstSeen.touch (FirstSeen.touch [none, some 9] c4Ts) c4Ts) 0 none
      = List.getD (FirstSeen.touch [none, some 9] c4Ts) 0 none := by
  have h := first_seen_touch_write_once [none, some 9] c4Ts c4Ts
    (by decide) rfl
  exact ⟨h.1 rfl, h.2.2.2⟩

end Loom
